import Mathlib

/-
Verification of the kubizone-common domain-name library.

Strings are modelled as lists of characters (the inputs of interest are
ASCII, where Rust byte length and character length coincide).  Each
definition mirrors one function of the source files under src/:

  - segment.rs   : DomainSegment::try_from            -> segTryFrom
  - fqdn.rs      : FullyQualifiedDomainName::try_from -> fqdnTryFrom,
                   Display -> dotRender, len -> fqdnLen, Sub -> fqdnSub,
                   is_subdomain_of -> isSubdomainOf
  - pqdn.rs      : PartiallyQualifiedDomainName::try_from -> pqdnTryFrom,
                   Display -> joinDots, len -> pqdnLen, Add -> pqdnAdd,
                   Add<&FullyQualifiedDomainName> -> pqdnAddFqdn
  - dn.rs        : DomainName (Dn), TryFrom<&str> -> dnTryFrom
  - pattern.rs   : PatternSegment::try_from -> patSegTryFrom,
                   PatternSegment::matches -> patSegMatches,
                   Pattern::try_from -> patternTryFrom,
                   Pattern::matches -> patternMatches
-/

/-- Errors of DomainSegment construction (segment.rs, DomainSegmentError). -/
inductive DomainSegmentError : Type
  | IllegalHyphen (pos : Nat)
  | InvalidCharacter (c : Char)
  | TooLong (len : Nat)
  | EmptyString
  | NonStandaloneWildcard
deriving DecidableEq

/-- Errors of PatternSegment construction (pattern.rs, PatternSegmentError). -/
inductive PatternSegmentError : Type
  | IllegalHyphen (pos : Nat)
  | InvalidCharacter (c : Char)
  | TooLong (len : Nat)
  | EmptyString
  | MultipleWildcards
  | NonStandaloneOrigin
deriving DecidableEq

/-- Errors of FullyQualifiedDomainName construction (fqdn.rs). -/
inductive FqdnError : Type
  | DomainIsPqdn
  | SegmentError (e : DomainSegmentError)
  | NonLeadingWildcard
deriving DecidableEq

/-- Errors of PartiallyQualifiedDomainName construction (pqdn.rs). -/
inductive PqdnError : Type
  | DomainIsFqdn
  | SegmentError (e : DomainSegmentError)
  | NonLeadingWildcard
deriving DecidableEq

instance {ε α : Type} [DecidableEq ε] [DecidableEq α] : DecidableEq (Except ε α) :=
  fun x y =>
    match x, y with
    | .error a, .error b =>
      match decEq a b with
      | isTrue h => isTrue (congrArg Except.error h)
      | isFalse h => isFalse (fun hh => h (Except.error.inj hh))
    | .error _, .ok _ => isFalse (fun hh => Except.noConfusion hh)
    | .ok _, .error _ => isFalse (fun hh => Except.noConfusion hh)
    | .ok a, .ok b =>
      match decEq a b with
      | isTrue h => isTrue (congrArg Except.ok h)
      | isFalse h => isFalse (fun hh => h (Except.ok.inj hh))

/-- The ten decimal digit characters 0-9 in order. -/
def digitChars : List Char :=
  (List.range 10).map (fun i => Char.ofNat (48 + i))

/-- The twenty-six lowercase letters a-z in order. -/
def lowercaseLetters : List Char :=
  (List.range 26).map (fun i => Char.ofNat (97 + i))

/-- The VALID_CHARACTERS constant of segment.rs: the characters of the
string literal underscore, hyphen, digits, lowercase letters, star. -/
def VALID_CHARACTERS : List Char :=
  '_' :: '-' :: digitChars ++ lowercaseLetters ++ ['*']

/-- The VALID_CHARACTERS constant of pattern.rs: the characters of the
string literal hyphen, digits, lowercase letters, star, at-sign. -/
def PATTERN_VALID_CHARACTERS : List Char :=
  '-' :: digitChars ++ lowercaseLetters ++ ['*', '@']

/-- Validation chain of DomainSegment::try_from (segment.rs) after lower-casing. -/
def segValidate (v : List Char) : Except DomainSegmentError (List Char) :=
  if v = [] then .error .EmptyString
  else if 63 < v.length then .error (.TooLong v.length)
  else if '*' ∈ v ∧ v.length ≠ 1 then .error .NonStandaloneWildcard
  else
    match v.find? (fun c => !(VALID_CHARACTERS.contains c)) with
    | some c => .error (.InvalidCharacter c)
    | none =>
      if v.head? = some '-' then .error (.IllegalHyphen 1)
      else if v.getLast? = some '-' then .error (.IllegalHyphen v.length)
      else if (v.drop 2).take 2 = ['-', '-'] then .error (.IllegalHyphen 3)
      else .ok v

/-- DomainSegment::try_from (segment.rs): ASCII-lower-cases, then validates. -/
def segTryFrom (value : List Char) : Except DomainSegmentError (List Char) :=
  segValidate (value.map Char.toLower)

/-- Validation chain of PatternSegment::try_from (pattern.rs) after lower-casing. -/
def patSegValidate (v : List Char) : Except PatternSegmentError (List Char) :=
  if v = [] then .error .EmptyString
  else if 63 < v.length then .error (.TooLong v.length)
  else
    match v.find? (fun c => !(PATTERN_VALID_CHARACTERS.contains c)) with
    | some c => .error (.InvalidCharacter c)
    | none =>
      if v.head? = some '-' then .error (.IllegalHyphen 1)
      else if v.getLast? = some '-' then .error (.IllegalHyphen v.length)
      else if (v.drop 2).take 2 = ['-', '-'] then .error (.IllegalHyphen 3)
      else if 1 < (v.filter (fun c => c == '*')).length then .error .MultipleWildcards
      else if '@' ∈ v ∧ v.length ≠ 1 then .error .NonStandaloneOrigin
      else .ok v

/-- PatternSegment::try_from (pattern.rs): ASCII-lower-cases, then validates. -/
def patSegTryFrom (value : List Char) : Except PatternSegmentError (List Char) :=
  patSegValidate (value.map Char.toLower)

/-- Rust str::split('.') over a character list: "" gives [""], "a." gives ["a",""]. -/
def splitOnDot : List Char → List (List Char)
  | [] => [[]]
  | c :: rest =>
    if c = '.' then [] :: splitOnDot rest
    else
      match splitOnDot rest with
      | [] => [[c]]
      | s :: ss => (c :: s) :: ss

/-- Rust str::trim_end_matches('.'): removes every trailing dot. -/
def trimEndDots (l : List Char) : List Char :=
  (l.reverse.dropWhile (fun c => c == '.')).reverse

/-- Result::from_iter over per-piece validation: first error short-circuits. -/
def collectSegs {ε : Type} (f : List Char → Except ε (List Char)) :
    List (List Char) → Except ε (List (List Char))
  | [] => .ok []
  | p :: ps =>
    match f p with
    | .error e => .error e
    | .ok s =>
      match collectSegs f ps with
      | .error e => .error e
      | .ok ss => .ok (s :: ss)

/-- Display of FullyQualifiedDomainName and of Pattern: every segment is
followed by a dot (fqdn.rs and pattern.rs Display impls). -/
def dotRender : List (List Char) → List Char
  | [] => []
  | s :: rest => s ++ '.' :: dotRender rest

/-- Display of PartiallyQualifiedDomainName: dot between segments, none at
the end (pqdn.rs Display impl). -/
def joinDots : List (List Char) → List Char
  | [] => []
  | [s] => s
  | s :: t :: rest => s ++ '.' :: joinDots (t :: rest)

/-- FullyQualifiedDomainName::try_from (fqdn.rs): requires a trailing dot,
trims all trailing dots, splits on dots, validates each segment, and rejects
non-leading wildcards. -/
def fqdnTryFrom (value : List Char) : Except FqdnError (List (List Char)) :=
  if value.getLast? ≠ some '.' then .error .DomainIsPqdn
  else
    match collectSegs segTryFrom (splitOnDot (trimEndDots value)) with
    | .error e => .error (.SegmentError e)
    | .ok segs =>
      if (segs.drop 1).any (fun s => s == ['*']) then .error .NonLeadingWildcard
      else .ok segs

/-- PartiallyQualifiedDomainName::try_from (pqdn.rs): rejects a trailing dot,
splits on dots, validates each segment, rejects non-leading wildcards. -/
def pqdnTryFrom (value : List Char) : Except PqdnError (List (List Char)) :=
  if value.getLast? = some '.' then .error .DomainIsFqdn
  else
    match collectSegs segTryFrom (splitOnDot value) with
    | .error e => .error (.SegmentError e)
    | .ok segs =>
      if (segs.drop 1).any (fun s => s == ['*']) then .error .NonLeadingWildcard
      else .ok segs

/-- DomainName (dn.rs): tagged union of a fully and a partially qualified name. -/
inductive Dn : Type
  | full (segs : List (List Char))
  | part (segs : List (List Char))
deriving DecidableEq

/-- DomainName::as_ref (dn.rs): the segment sequence of either variant. -/
def dnSegs : Dn → List (List Char)
  | .full segs => segs
  | .part segs => segs

/-- TryFrom of str for DomainName (dn.rs).  `none` models an abort: the
source calls .unwrap() on the partially-qualified construction (which panics
when that construction fails), and its match has no arm for the
NonLeadingWildcard error of the fully-qualified parse. -/
def dnTryFrom (value : List Char) : Option (Except DomainSegmentError Dn) :=
  match fqdnTryFrom value with
  | .ok f => some (.ok (.full f))
  | .error .DomainIsPqdn =>
    match pqdnTryFrom value with
    | .ok p => some (.ok (.part p))
    | .error _ => none
  | .error (.SegmentError e) => some (.error e)
  | .error .NonLeadingWildcard => none

/-- Rust str::split_once('*'): the parts before and after the first star. -/
def splitOnceStar : List Char → Option (List Char × List Char)
  | [] => none
  | c :: rest =>
    if c = '*' then some ([], rest)
    else
      match splitOnceStar rest with
      | none => none
      | some (h, t) => some (c :: h, t)

/-- PatternSegment::matches (pattern.rs): exact equality, or split at the
first star and compare head as prefix and tail as suffix. -/
def patSegMatches (p d : List Char) : Bool :=
  if p == d then true
  else
    match splitOnceStar p with
    | some (h, t) => h.isPrefixOf d && t.isSuffixOf d
    | none => false

/-- The zipped walk of Pattern::matches from the least-specific end: a
standalone star pattern segment short-circuits to true. -/
def walkPairs : List (List Char × List Char) → Bool
  | [] => true
  | (p, d) :: rest =>
    if p == ['*'] then true
    else if patSegMatches p d then walkPairs rest
    else false

/-- Pattern::matches (pattern.rs): length rules, then the reversed zipped walk. -/
def patternMatches (p : List (List Char)) (d : Dn) : Bool :=
  if (dnSegs d).length < p.length then false
  else if (dnSegs d).length > p.length ∧ ¬(p.head? = some ['*']) then false
  else walkPairs (p.reverse.zip (dnSegs d).reverse)

/-- Pattern::try_from (pattern.rs): trims all trailing dots, splits on dots,
validates each pattern segment; no positional wildcard check. -/
def patternTryFrom (value : List Char) : Except PatternSegmentError (List (List Char)) :=
  collectSegs patSegTryFrom (splitOnDot (trimEndDots value))

/-- Composition harness: parse a pattern text and a domain text, then run
Pattern::matches; `none` when either parse fails or aborts. -/
def parseAndMatch (pt dt : List Char) : Option Bool :=
  match patternTryFrom pt, dnTryFrom dt with
  | .ok p, some (.ok d) => some (patternMatches p d)
  | _, _ => none

/-- The backwards walk of Sub for FullyQualifiedDomainName (fqdn.rs): both
sequences reversed; every parent segment must equal the next own segment;
the leftover own segments (re-reversed) are the result. -/
def subGo (own parent : List (List Char)) : Option (List (List Char)) :=
  match parent with
  | [] => some own.reverse
  | p :: ps =>
    match own with
    | [] => none
    | o :: os => if o = p then subGo os ps else none

/-- Sub for FullyQualifiedDomainName (fqdn.rs): on failure the original
minuend is returned unchanged as the error payload. -/
def fqdnSub (self rhs : List (List Char)) :
    Except (List (List Char)) (List (List Char)) :=
  match subGo self.reverse rhs.reverse with
  | some segs => .ok segs
  | none => .error self

/-- Add of &PartiallyQualifiedDomainName and &FullyQualifiedDomainName
(pqdn.rs): plain concatenation of the segment sequences. -/
def pqdnAddFqdn (a b : List (List Char)) : List (List Char) :=
  a ++ b

/-- Add for &PartiallyQualifiedDomainName (pqdn.rs): plain concatenation of
the segment sequences, with no re-validation. -/
def pqdnAdd (a b : List (List Char)) : List (List Char) :=
  a ++ b

/-- FullyQualifiedDomainName::is_subdomain_of (fqdn.rs). -/
def isSubdomainOf (x parent : List (List Char)) : Bool :=
  parent.isSuffixOf x && x != parent

/-- FullyQualifiedDomainName::len (fqdn.rs): segment lengths plus one
separator per segment. -/
def fqdnLen (v : List (List Char)) : Nat :=
  (v.map List.length).sum + v.length

/-- PartiallyQualifiedDomainName::len (pqdn.rs): same formula as the fully
qualified case, one separator counted per segment. -/
def pqdnLen (v : List (List Char)) : Nat :=
  (v.map List.length).sum + v.length

/-- A canonical well-formed name value: nonempty, every segment is a fixed
point of DomainSegment::try_from, and no wildcard after the first segment.
These are exactly the values whose rendering is a valid name text. -/
def NameWF (v : List (List Char)) : Prop :=
  v ≠ [] ∧ (∀ s ∈ v, segTryFrom s = .ok s) ∧
    (v.drop 1).any (fun s => s == ['*']) = false

/-- A canonical well-formed pattern value: nonempty and every segment is a
fixed point of PatternSegment::try_from. -/
def PatWF (v : List (List Char)) : Prop :=
  v ≠ [] ∧ ∀ s ∈ v, patSegTryFrom s = .ok s

/-- The letters-digits-hyphen charset named by the specification for domain
segments; the standalone markers are treated separately. -/
def lowercaseCoreChars : List Char :=
  '-' :: digitChars ++ lowercaseLetters

lemma splitOnDot_noDot (s : List Char) (h : '.' ∉ s) : splitOnDot s = [s] := by
  induction s with
  | nil => rfl
  | cons c cs ih =>
    have hc : ¬(c = '.') := fun hc => h (hc ▸ List.mem_cons_self c cs)
    have hcs : '.' ∉ cs := fun hm => h (List.mem_cons_of_mem c hm)
    simp only [splitOnDot, if_neg hc, ih hcs]

lemma splitOnDot_append (s t : List Char) (h : '.' ∉ s) :
    splitOnDot (s ++ '.' :: t) = s :: splitOnDot t := by
  induction s with
  | nil => simp [splitOnDot]
  | cons c cs ih =>
    have hc : ¬(c = '.') := fun hc => h (hc ▸ List.mem_cons_self c cs)
    have hcs : '.' ∉ cs := fun hm => h (List.mem_cons_of_mem c hm)
    show splitOnDot (c :: (cs ++ '.' :: t)) = (c :: cs) :: splitOnDot t
    simp only [splitOnDot, if_neg hc]
    rw [ih hcs]

lemma splitOnDot_joinDots (v : List (List Char)) (hdot : ∀ s ∈ v, '.' ∉ s) :
    v ≠ [] → splitOnDot (joinDots v) = v := by
  induction v with
  | nil => intro hv; exact absurd rfl hv
  | cons s rest ih =>
    intro _
    cases rest with
    | nil => exact splitOnDot_noDot s (hdot s (List.mem_cons_self s []))
    | cons t r =>
      have hs : '.' ∉ s := hdot s (List.mem_cons_self s (t :: r))
      have hrest : ∀ u ∈ t :: r, '.' ∉ u := fun u hu => hdot u (List.mem_cons_of_mem s hu)
      simp only [joinDots, splitOnDot_append s _ hs, ih hrest (by simp)]

lemma collectSegs_fixed {ε : Type} (f : List Char → Except ε (List Char)) :
    ∀ v : List (List Char), (∀ s ∈ v, f s = .ok s) → collectSegs f v = .ok v := by
  intro v
  induction v with
  | nil => intro _; rfl
  | cons s rest ih =>
    intro h
    have hs := h s (List.mem_cons_self s rest)
    have hrest := ih (fun u hu => h u (List.mem_cons_of_mem s hu))
    simp only [collectSegs, hs, hrest]

lemma dotRender_eq_joinDots (v : List (List Char)) (hv : v ≠ []) :
    dotRender v = joinDots v ++ ['.'] := by
  induction v with
  | nil => exact absurd rfl hv
  | cons s rest ih =>
    cases rest with
    | nil => simp [dotRender, joinDots]
    | cons t r =>
      calc dotRender (s :: t :: r) = s ++ '.' :: dotRender (t :: r) := rfl
        _ = s ++ '.' :: (joinDots (t :: r) ++ ['.']) := by rw [ih (by simp)]
        _ = (s ++ '.' :: joinDots (t :: r)) ++ ['.'] := by simp
        _ = joinDots (s :: t :: r) ++ ['.'] := rfl

lemma joinDots_ne_nil (s : List Char) (rest : List (List Char)) (h : s ≠ []) :
    joinDots (s :: rest) ≠ [] := by
  cases rest with
  | nil => simpa [joinDots] using h
  | cons t r => simp [joinDots]

lemma joinDots_getLast_ne_dot :
    ∀ (rest : List (List Char)) (s : List Char), (∀ u ∈ s :: rest, u ≠ [] ∧ '.' ∉ u) →
      (joinDots (s :: rest)).getLast? ≠ some '.' := by
  intro rest
  induction rest with
  | nil =>
    intro s h heq
    have hs := h s (List.mem_cons_self s [])
    exact hs.2 (by simpa [joinDots] using List.mem_of_mem_getLast? heq)
  | cons t r ih =>
    intro s h heq
    have ht : ∀ u ∈ t :: r, u ≠ [] ∧ '.' ∉ u := fun u hu => h u (List.mem_cons_of_mem s hu)
    have hj : joinDots (t :: r) ≠ [] := joinDots_ne_nil t r (ht t (List.mem_cons_self t r)).1
    apply ih t ht
    rw [← heq]
    cases hjr : joinDots (t :: r) with
    | nil => exact absurd hjr hj
    | cons a as =>
      simp only [joinDots, hjr, List.getLast?_append, List.getLast?_cons_cons]
      cases h2 : (a :: as).getLast? with
      | none => simp at h2
      | some b => simp [Option.or]

lemma dropWhile_dot_reverse (l : List Char) (h : l.getLast? ≠ some '.') :
    l.reverse.dropWhile (fun c => c == '.') = l.reverse := by
  cases hr : l.reverse with
  | nil => rfl
  | cons c r =>
    have hc : l.getLast? = some c := by rw [← List.head?_reverse, hr]; rfl
    have : ¬(c = '.') := fun hcd => h (hcd ▸ hc)
    simp [List.dropWhile_cons, this]

lemma trimEndDots_self (l : List Char) (h : l.getLast? ≠ some '.') :
    trimEndDots l = l := by
  unfold trimEndDots
  rw [dropWhile_dot_reverse l h, List.reverse_reverse]

lemma trimEndDots_concat_dot (l : List Char) (h : l.getLast? ≠ some '.') :
    trimEndDots (l ++ ['.']) = l := by
  unfold trimEndDots
  have : (l ++ ['.']).reverse = '.' :: l.reverse := by simp
  rw [this, List.dropWhile_cons]
  simp only [show (('.' : Char) == '.') = true from rfl, if_true]
  rw [dropWhile_dot_reverse l h, List.reverse_reverse]

lemma segValidate_ok (v w : List Char) (h : segValidate v = .ok w) :
    w = v ∧ v ≠ [] ∧ ∀ c ∈ v, VALID_CHARACTERS.contains c = true := by
  unfold segValidate at h
  split at h
  next => exact Except.noConfusion h
  next h1 =>
    split at h
    next => exact Except.noConfusion h
    next h2 =>
      split at h
      next => exact Except.noConfusion h
      next h3 =>
        split at h
        next c hc => exact Except.noConfusion h
        next hfind =>
          split at h
          next => exact Except.noConfusion h
          next h4 =>
            split at h
            next => exact Except.noConfusion h
            next h5 =>
              split at h
              next => exact Except.noConfusion h
              next h6 =>
                refine ⟨(Except.ok.inj h).symm, h1, ?_⟩
                intro c hc
                have := List.find?_eq_none.mp hfind c hc
                simpa using this

lemma patSegValidate_ok (v w : List Char) (h : patSegValidate v = .ok w) :
    w = v ∧ v ≠ [] ∧ ∀ c ∈ v, PATTERN_VALID_CHARACTERS.contains c = true := by
  unfold patSegValidate at h
  split at h
  next => exact Except.noConfusion h
  next h1 =>
    split at h
    next => exact Except.noConfusion h
    next h2 =>
      split at h
      next c hc => exact Except.noConfusion h
      next hfind =>
        split at h
        next => exact Except.noConfusion h
        next h4 =>
          split at h
          next => exact Except.noConfusion h
          next h5 =>
            split at h
            next => exact Except.noConfusion h
            next h6 =>
              split at h
              next => exact Except.noConfusion h
              next h7 =>
                split at h
                next => exact Except.noConfusion h
                next h8 =>
                  refine ⟨(Except.ok.inj h).symm, h1, ?_⟩
                  intro c hc
                  have := List.find?_eq_none.mp hfind c hc
                  simpa using this

lemma segCanon_shape (s : List Char) (h : segTryFrom s = .ok s) :
    s ≠ [] ∧ '.' ∉ s := by
  unfold segTryFrom at h
  obtain ⟨heq, hne, hall⟩ := segValidate_ok _ _ h
  constructor
  · intro hs
    exact hne (by simp [hs])
  · intro hdot
    have hmem : '.' ∈ s.map Char.toLower := List.mem_map.mpr ⟨'.', hdot, rfl⟩
    have := hall '.' hmem
    exact absurd this (by decide)

lemma patSegCanon_shape (s : List Char) (h : patSegTryFrom s = .ok s) :
    s ≠ [] ∧ '.' ∉ s := by
  unfold patSegTryFrom at h
  obtain ⟨heq, hne, hall⟩ := patSegValidate_ok _ _ h
  constructor
  · intro hs
    exact hne (by simp [hs])
  · intro hdot
    have hmem : '.' ∈ s.map Char.toLower := List.mem_map.mpr ⟨'.', hdot, rfl⟩
    have := hall '.' hmem
    exact absurd this (by decide)

lemma subGo_prefix (parent : List (List Char)) :
    ∀ own : List (List Char), subGo (parent ++ own) parent = some own.reverse := by
  induction parent with
  | nil => intro own; simp [subGo]
  | cons p ps ih =>
    intro own
    show subGo (p :: (ps ++ own)) (p :: ps) = some own.reverse
    simp only [subGo, if_pos rfl]
    exact ih own

lemma nameWF_shape (v : List (List Char)) (h : NameWF v) :
    ∀ s ∈ v, s ≠ [] ∧ '.' ∉ s :=
  fun s hs => segCanon_shape s (h.2.1 s hs)

lemma nameWF_join_last (v : List (List Char)) (h : NameWF v) :
    (joinDots v).getLast? ≠ some '.' := by
  cases v with
  | nil => exact absurd rfl h.1
  | cons s rest => exact joinDots_getLast_ne_dot rest s (nameWF_shape _ h)

lemma fqdn_roundtrip (v : List (List Char)) (h : NameWF v) :
    fqdnTryFrom (dotRender v) = .ok v := by
  obtain ⟨hne, hseg, hany⟩ := h
  have hshape := nameWF_shape v ⟨hne, hseg, hany⟩
  have hlast := nameWF_join_last v ⟨hne, hseg, hany⟩
  rw [dotRender_eq_joinDots v hne]
  unfold fqdnTryFrom
  rw [if_neg (by simp [List.getLast?_concat])]
  rw [trimEndDots_concat_dot _ hlast]
  rw [splitOnDot_joinDots v (fun s hs => (hshape s hs).2) hne]
  rw [collectSegs_fixed segTryFrom v hseg]
  simp only [hany]
  rfl

lemma pqdn_roundtrip (v : List (List Char)) (h : NameWF v) :
    pqdnTryFrom (joinDots v) = .ok v := by
  obtain ⟨hne, hseg, hany⟩ := h
  have hshape := nameWF_shape v ⟨hne, hseg, hany⟩
  have hlast := nameWF_join_last v ⟨hne, hseg, hany⟩
  unfold pqdnTryFrom
  rw [if_neg hlast]
  rw [splitOnDot_joinDots v (fun s hs => (hshape s hs).2) hne]
  rw [collectSegs_fixed segTryFrom v hseg]
  simp only [hany]
  rfl

lemma patWF_shape (v : List (List Char)) (h : PatWF v) :
    ∀ s ∈ v, s ≠ [] ∧ '.' ∉ s :=
  fun s hs => patSegCanon_shape s (h.2 s hs)

lemma patWF_join_last (v : List (List Char)) (h : PatWF v) :
    (joinDots v).getLast? ≠ some '.' := by
  cases v with
  | nil => exact absurd rfl h.1
  | cons s rest => exact joinDots_getLast_ne_dot rest s (patWF_shape _ h)

lemma pattern_roundtrip_dotted (v : List (List Char)) (h : PatWF v) :
    patternTryFrom (dotRender v) = .ok v := by
  obtain ⟨hne, hseg⟩ := h
  have hshape := patWF_shape v ⟨hne, hseg⟩
  have hlast := patWF_join_last v ⟨hne, hseg⟩
  rw [dotRender_eq_joinDots v hne]
  unfold patternTryFrom
  rw [trimEndDots_concat_dot _ hlast]
  rw [splitOnDot_joinDots v (fun s hs => (hshape s hs).2) hne]
  exact collectSegs_fixed patSegTryFrom v hseg

lemma pattern_roundtrip_dotless (v : List (List Char)) (h : PatWF v) :
    patternTryFrom (joinDots v) = .ok v := by
  obtain ⟨hne, hseg⟩ := h
  have hshape := patWF_shape v ⟨hne, hseg⟩
  have hlast := patWF_join_last v ⟨hne, hseg⟩
  unfold patternTryFrom
  rw [trimEndDots_self _ hlast]
  rw [splitOnDot_joinDots v (fun s hs => (hshape s hs).2) hne]
  exact collectSegs_fixed patSegTryFrom v hseg

/-- Claim C1: a domain with fewer segments than the pattern never matches; a
domain with more segments than the pattern never matches unless the pattern's
first segment is the standalone wildcard; the pattern *.example.org. matches
www.example.org. and a.b.example.org. but not example.org. -/
theorem pattern_matches_length_rules :
    (∀ (p : List (List Char)) (d : Dn),
      (dnSegs d).length < p.length → patternMatches p d = false) ∧
    (∀ (p : List (List Char)) (d : Dn),
      p.length < (dnSegs d).length → ¬(p.head? = some ['*']) →
        patternMatches p d = false) ∧
    parseAndMatch ['*', '.', 'e', 'x', 'a', 'm', 'p', 'l', 'e', '.', 'o', 'r', 'g', '.']
      ['w', 'w', 'w', '.', 'e', 'x', 'a', 'm', 'p', 'l', 'e', '.', 'o', 'r', 'g', '.'] =
      some true ∧
    parseAndMatch ['*', '.', 'e', 'x', 'a', 'm', 'p', 'l', 'e', '.', 'o', 'r', 'g', '.']
      ['a', '.', 'b', '.', 'e', 'x', 'a', 'm', 'p', 'l', 'e', '.', 'o', 'r', 'g', '.'] =
      some true ∧
    parseAndMatch ['*', '.', 'e', 'x', 'a', 'm', 'p', 'l', 'e', '.', 'o', 'r', 'g', '.']
      ['e', 'x', 'a', 'm', 'p', 'l', 'e', '.', 'o', 'r', 'g', '.'] = some false := by
  refine ⟨?_, ?_, rfl, rfl, rfl⟩
  · intro p d h
    unfold patternMatches
    rw [if_pos h]
  · intro p d h hw
    unfold patternMatches
    rw [if_neg (Nat.lt_asymm h), if_pos ⟨h, hw⟩]

/-- Witness for C1 at a concrete short domain. -/
theorem pattern_matches_length_rules_witness :
    (dnSegs (Dn.full [])).length < [['a']].length ∧
    patternMatches [['a']] (Dn.full []) = false :=
  ⟨by decide, pattern_matches_length_rules.1 [['a']] (Dn.full []) (by decide)⟩

/-- Claim C2: subtracting P from S + P returns exactly S; the law holds for
every S and P, with or without the spec's no-further-common-suffix proviso. -/
theorem pqdn_add_fqdn_sub_inverse :
    ∀ S P : List (List Char), fqdnSub (pqdnAddFqdn S P) P = .ok S := by
  intro S P
  unfold fqdnSub pqdnAddFqdn
  rw [List.reverse_append, subGo_prefix, List.reverse_reverse]

/-- Claim C3 (code bug evidence): DomainName::try_from aborts instead of
returning a typed error on inputs without a trailing dot whose segments are
invalid ("ab..cd") or whose wildcard is non-leading ("b.*"). -/
theorem dn_tryFrom_aborts :
    dnTryFrom ['a', 'b', '.', '.', 'c', 'd'] = none ∧
    dnTryFrom ['b', '.', '*'] = none :=
  ⟨rfl, rfl⟩

/-- Counterexample to claim C4: the standalone origin marker is not accepted
as a DomainSegment; it is rejected as an invalid character. -/
theorem origin_segment_rejected :
    segTryFrom ['@'] = .error (.InvalidCharacter '@') := rfl

/-- Claim C4 as amended: every 1..63-character label over letters, digits and
hyphen (or the standalone wildcard), without leading, trailing or 3rd-4th
double hyphen, is accepted in any case variant and renders lower-cased; the
origin marker is excluded. -/
theorem segment_accepts_spec_charset (s t : List Char)
    (hlow : s.map Char.toLower = t)
    (h1 : t ≠ []) (h2 : t.length ≤ 63)
    (h3 : (∀ c ∈ t, c ∈ lowercaseCoreChars) ∨ t = ['*'])
    (h4 : t.head? ≠ some '-') (h5 : t.getLast? ≠ some '-')
    (h6 : (t.drop 2).take 2 ≠ ['-', '-']) :
    segTryFrom s = .ok t := by
  have hstar : ¬('*' ∈ t ∧ t.length ≠ 1) := by
    rcases h3 with hcore | heq
    · rintro ⟨hmem, -⟩
      exact absurd (hcore '*' hmem) (by decide)
    · subst heq
      rintro ⟨-, hlen⟩
      exact hlen rfl
  have hfind : t.find? (fun c => !(VALID_CHARACTERS.contains c)) = none := by
    rw [List.find?_eq_none]
    intro c hc
    rcases h3 with hcore | heq
    · have hsub : ∀ c ∈ lowercaseCoreChars, c ∈ VALID_CHARACTERS := by decide
      simp
      exact hsub c (hcore c hc)
    · subst heq
      have hcs : c = '*' := by simpa using hc
      subst hcs
      decide
  unfold segTryFrom segValidate
  rw [hlow]
  simp only [if_neg h1, if_neg (show ¬(63 < t.length) by omega), if_neg hstar, hfind,
    if_neg h4, if_neg h5, if_neg h6]

/-- Witness for the amended C4 at the mixed-case label Ab-1. -/
theorem segment_accepts_spec_charset_witness :
    (['A', 'b', '-', '1'].map Char.toLower = ['a', 'b', '-', '1']) ∧
    segTryFrom ['A', 'b', '-', '1'] = .ok ['a', 'b', '-', '1'] :=
  ⟨by decide,
    segment_accepts_spec_charset ['A', 'b', '-', '1'] ['a', 'b', '-', '1'] (by decide)
      (by decide) (by decide) (Or.inl (by decide)) (by decide) (by decide) (by decide)⟩

/-- Claim C5: is_subdomain_of holds exactly when the parent's segments are a
suffix of the child's and the two differ; in particular it is irreflexive. -/
theorem is_subdomain_of_spec :
    (∀ x parent : List (List Char),
      isSubdomainOf x parent = true ↔ parent <:+ x ∧ x ≠ parent) ∧
    (∀ x : List (List Char), isSubdomainOf x x = false) := by
  constructor
  · intro x parent
    unfold isSubdomainOf
    rw [Bool.and_eq_true, List.isSuffixOf_iff_suffix, bne_iff_ne]
  · intro x
    unfold isSubdomainOf
    simp

/-- Counterexample to claim C6: the valid dotless pattern text "a" does not
round-trip; its parse renders as "a." with a trailing dot appended. -/
theorem pattern_dotless_roundtrip_fails :
    patternTryFrom ['a'] = .ok [['a']] ∧ dotRender [['a']] = ['a', '.'] ∧
    (['a', '.'] : List Char) ≠ ['a'] :=
  ⟨rfl, rfl, by decide⟩

/-- Claim C6 as amended: parse-then-render is the identity on valid FQN texts
and valid PQN texts; a pattern text with a trailing dot round-trips unchanged,
and a dotless pattern text parses to the same pattern value (which re-renders
with a trailing dot). -/
theorem parse_render_roundtrip :
    (∀ v, NameWF v → fqdnTryFrom (dotRender v) = .ok v) ∧
    (∀ v, NameWF v → pqdnTryFrom (joinDots v) = .ok v) ∧
    (∀ v, PatWF v → patternTryFrom (dotRender v) = .ok v ∧
      patternTryFrom (joinDots v) = .ok v) :=
  ⟨fqdn_roundtrip, pqdn_roundtrip,
    fun v h => ⟨pattern_roundtrip_dotted v h, pattern_roundtrip_dotless v h⟩⟩

/-- Witness for the amended C6 at the name a.b. -/
theorem parse_render_roundtrip_witness :
    NameWF [['a'], ['b']] ∧ fqdnTryFrom (dotRender [['a'], ['b']]) = .ok [['a'], ['b']] := by
  have hwf : NameWF [['a'], ['b']] := by
    unfold NameWF
    exact ⟨by decide, by decide, by decide⟩
  exact ⟨hwf, parse_render_roundtrip.1 _ hwf⟩

/-- Counterexample to claim C7: the len of the one-segment partially
qualified name "a" is 2, but its rendering has length 1. -/
theorem pqdn_len_mismatch :
    pqdnLen [['a']] ≠ (joinDots [['a']]).length ∧
    pqdnLen [['a']] = 2 ∧ (joinDots [['a']]).length = 1 :=
  ⟨by decide, rfl, rfl⟩

/-- Claim C7 as amended: the fully qualified len equals the rendering length
(trailing dot included), while the partially qualified len counts one
separator per segment and so exceeds its rendering length by one. -/
theorem len_counts_separators :
    (∀ v : List (List Char), fqdnLen v = (dotRender v).length) ∧
    (∀ v : List (List Char), v ≠ [] → pqdnLen v = (joinDots v).length + 1) := by
  constructor
  · intro v
    induction v with
    | nil => rfl
    | cons s rest ih =>
      simp only [fqdnLen, dotRender, List.map_cons, List.sum_cons, List.length_cons,
        List.length_append] at *
      omega
  · intro v
    induction v with
    | nil => intro h; exact absurd rfl h
    | cons s rest ih =>
      intro _
      cases rest with
      | nil => simp [pqdnLen, joinDots]
      | cons t r =>
        have ih2 := ih (by simp)
        simp only [pqdnLen, joinDots, List.map_cons, List.sum_cons, List.length_cons,
          List.length_append] at *
        omega

/-- Witness for the amended C7 at the one-segment name a. -/
theorem len_counts_separators_witness :
    ([['a']] : List (List Char)) ≠ [] ∧
    pqdnLen [['a']] = (joinDots [['a']]).length + 1 :=
  ⟨by decide, len_counts_separators.2 [['a']] (by decide)⟩

/-- Counterexample to claim C8: adding the valid names "a" and "*" is not
rejected; it produces a value whose second segment is a wildcard. -/
theorem pqdn_add_not_validated :
    pqdnTryFrom ['a'] = .ok [['a']] ∧ pqdnTryFrom ['*'] = .ok [['*']] ∧
    pqdnAdd [['a']] [['*']] = [['a'], ['*']] ∧
    (([['a'], ['*']] : List (List Char)).drop 1).any (fun s => s == ['*']) = true :=
  ⟨rfl, rfl, rfl, rfl⟩

/-- Claim C8 as amended: addition concatenates the segment sequences with no
re-validation and always succeeds; the sum of "a" and "*" renders to a text
that construction itself rejects as a non-leading wildcard. -/
theorem pqdn_add_concatenates :
    (∀ a b : List (List Char), pqdnAdd a b = a ++ b) ∧
    pqdnTryFrom (joinDots (pqdnAdd [['a']] [['*']])) = .error .NonLeadingWildcard :=
  ⟨fun _ _ => rfl, rfl⟩

/-- Counterexample to claim C9: the string *. mixes a wildcard with an
invalid character, and construction reports NonStandaloneWildcard, not
InvalidCharacter. -/
theorem wildcard_error_beats_invalid_char :
    segTryFrom ['*', '.'] = .error .NonStandaloneWildcard ∧
    DomainSegmentError.NonStandaloneWildcard ≠ DomainSegmentError.InvalidCharacter '.' :=
  ⟨rfl, by decide⟩

/-- Claim C9 as amended: the wildcard-standalone check precedes the
invalid-character check, so every nonempty input of length at most 63 that
contains a star among other characters fails with NonStandaloneWildcard. -/
theorem nonstandalone_wildcard_precedence (s : List Char)
    (h1 : s ≠ []) (h2 : s.length ≤ 63) (h3 : '*' ∈ s) (h4 : s.length ≠ 1) :
    segTryFrom s = .error .NonStandaloneWildcard := by
  have hne : s.map Char.toLower ≠ [] := by simpa using h1
  have hlen : ¬(63 < (s.map Char.toLower).length) := by
    rw [List.length_map]
    omega
  have hmem : '*' ∈ s.map Char.toLower := List.mem_map.mpr ⟨'*', h3, rfl⟩
  have hlen1 : (s.map Char.toLower).length ≠ 1 := by
    rw [List.length_map]
    exact h4
  unfold segTryFrom segValidate
  rw [if_neg hne, if_neg hlen, if_pos ⟨hmem, hlen1⟩]

/-- Witness for the amended C9 at the input *. -/
theorem nonstandalone_wildcard_precedence_witness :
    ((['*', '.'] : List Char) ≠ [] ∧ (['*', '.'] : List Char).length ≤ 63 ∧
      '*' ∈ (['*', '.'] : List Char) ∧ (['*', '.'] : List Char).length ≠ 1) ∧
    segTryFrom ['*', '.'] = .error .NonStandaloneWildcard :=
  ⟨by decide,
    nonstandalone_wildcard_precedence ['*', '.'] (by decide) (by decide) (by decide)
      (by decide)⟩

/-- Claim C10: subtracting a fully qualified name from itself succeeds with
the empty partially qualified name, whose rendering is the empty string. -/
theorem sub_self_empty :
    (∀ x : List (List Char), fqdnSub x x = .ok []) ∧
    joinDots [] = ([] : List Char) := by
  constructor
  · intro x
    unfold fqdnSub
    have h := subGo_prefix x.reverse []
    rw [List.append_nil] at h
    rw [h]
    rfl
  · rfl
